import Mathlib

/-
Verification of the PSARc archive engine core (pak.c, unpak.c, common.c,
inettypes.c, threads.c) against its specification.  Bytes are modelled as
natural numbers below 256; buffers are lists of bytes.  The external codec
libraries (zlib, liblzma) are out of scope of the repository and are modelled
abstractly by an oracle record; everything else is translated directly from
the C sources.
-/

namespace PSARc

/-- Compression type constants PSARC_STORE, PSARC_ZLIB, PSARC_LZMA from psarc.h. -/
inductive Codec where
  | store
  | zlib
  | lzma
deriving DecidableEq, Repr

/-- Big-endian serialization of a 16-bit value (htons), two bytes. -/
def htons (v : Nat) : List Nat := [v / 256 % 256, v % 256]

/-- Big-endian serialization of a 24-bit value (hton24 in inettypes.c), three bytes. -/
def hton24 (v : Nat) : List Nat := [v / 65536 % 256, v / 256 % 256, v % 256]

/-- Big-endian serialization of a 32-bit value (htonl), four bytes. -/
def htonl (v : Nat) : List Nat := [v / 16777216 % 256, v / 65536 % 256, v / 256 % 256, v % 256]

/-- Big-endian serialization of a 40-bit value (hton40 in inettypes.c), five bytes. -/
def hton40 (v : Nat) : List Nat :=
  [v / 4294967296 % 256, v / 16777216 % 256, v / 65536 % 256, v / 256 % 256, v % 256]

/-- Big-endian parse of two bytes (ntohs); missing bytes read as 0. -/
def ntohs (b : List Nat) : Nat := b.getD 0 0 * 256 + b.getD 1 0

/-- Big-endian parse of three bytes (ntoh24 in inettypes.c). -/
def ntoh24 (b : List Nat) : Nat := (b.getD 0 0 * 256 + b.getD 1 0) * 256 + b.getD 2 0

/-- Big-endian parse of four bytes (ntohl). -/
def ntohl (b : List Nat) : Nat :=
  ((b.getD 0 0 * 256 + b.getD 1 0) * 256 + b.getD 2 0) * 256 + b.getD 3 0

/-- Big-endian parse of five bytes (ntoh40 in inettypes.c). -/
def ntoh40 (b : List Nat) : Nat :=
  (((b.getD 0 0 * 256 + b.getD 1 0) * 256 + b.getD 2 0) * 256 + b.getD 3 0) * 256 + b.getD 4 0

/-- Width in bytes of one block-table item, from get_blocktable_item_size in
common.c: 1 for block sizes up to 0x100, 2 up to 0x10000, 3 up to 0x1000000,
4 up to 0x100000000, and -1 beyond. -/
def get_blocktable_item_size (block_size : Nat) : Int :=
  if block_size ≤ 0x100 then 1
  else if block_size ≤ 0x10000 then 2
  else if block_size ≤ 0x1000000 then 3
  else if block_size ≤ 0x100000000 then 4
  else -1

/-- Bytes written for one block-table entry by the switch in write_blocktable
(pak.c): the stored uint32 is masked (0xff, 0xffff, 0x0fffff, or the uint32
range) and emitted big-endian in item_size bytes.  Masking with an all-ones
mask is reduction modulo the mask plus one. -/
def write_blocktable_item (item_size : Int) (v : Nat) : List Nat :=
  if item_size = 1 then [v % 256]
  else if item_size = 2 then htons (v % 65536)
  else if item_size = 3 then hton24 (v % 1048576)
  else if item_size = 4 then htonl (v % 4294967296)
  else []

/-- Value recovered from one block-table entry by the switch in
read_blocktable (unpak.c). -/
def read_blocktable_item (item_size : Int) (b : List Nat) : Nat :=
  if item_size = 1 then b.getD 0 0
  else if item_size = 2 then ntohs b
  else if item_size = 3 then ntoh24 b
  else if item_size = 4 then ntohl b
  else 0

/-- Serialization-then-parse of one block-table slot value, the composition a
stored uint32 undergoes between create_archive and process_archive. -/
def blocktable_slot_file_roundtrip (item_size : Int) (v : Nat) : Nat :=
  read_blocktable_item item_size (write_blocktable_item item_size v)

/-- Big-endian encoding of a value in exactly w bytes, used only to state the
serialisation rule in the words of the specification. -/
def be_bytes (w : Int) (v : Nat) : List Nat :=
  if w = 1 then [v % 256]
  else if w = 2 then [v / 256 % 256, v % 256]
  else if w = 3 then [v / 65536 % 256, v / 256 % 256, v % 256]
  else [v / 16777216 % 256, v / 65536 % 256, v / 256 % 256, v % 256]

/-- Claim C3 stated in the words of the specification: write the sentinel 0
when the emitted count equals block_size, otherwise write the emitted count
big-endian in exactly W bytes.  Compared against write_blocktable_item, which
is what the source does. -/
def claimed_blocktable_item (block_size v : Nat) : List Nat :=
  let w := get_blocktable_item_size block_size
  if v = block_size then be_bytes w 0 else be_bytes w v

/-- Resolution of a block-size table slot on read: value 0 stands for a block
of exactly chunk_size bytes (decompress_entry and get_compressed_size). -/
def resolve_block_size (chunk_size slot : Nat) : Nat :=
  if slot = 0 then chunk_size else slot

/-- Sum of resolved block-table slots over the half-open index range starting
at index with the given count, the accumulation loop of get_compressed_size
in common.c. -/
def sum_resolved (chunk_size : Nat) (bt : Nat → Nat) (index : Nat) : Nat → Nat
  | 0 => 0
  | n + 1 => resolve_block_size chunk_size (bt index) + sum_resolved chunk_size bt (index + 1) n

/-- Compressed size of an entry, from get_compressed_size in common.c: zero
when uncompressed_size is zero, otherwise the sum of the resolved slots of
its ceil(uncompressed_size / chunk_size) blocks. -/
def get_compressed_size (chunk_size : Nat) (bt : Nat → Nat) (block_index uncompressed_size : Nat) : Nat :=
  if uncompressed_size ≠ 0 then
    sum_resolved chunk_size bt block_index ((uncompressed_size + chunk_size - 1) / chunk_size)
  else 0

/-- Bytes consumed from the archive by the read loop of decompress_entry in
unpak.c: while remaining is positive it reads resolve(blocktable[open_block])
bytes and lowers remaining by min(chunk_size, remaining).  The loop lowers
remaining by at least one per pass whenever chunk_size is positive, so fuel
equal to the initial remaining is exact. -/
def decompress_consumed_loop (chunk_size : Nat) (bt : Nat → Nat) : Nat → Nat → Nat → Nat
  | 0, _, _ => 0
  | fuel + 1, index, remaining =>
    if remaining = 0 then 0
    else
      resolve_block_size chunk_size (bt index) +
        decompress_consumed_loop chunk_size bt fuel (index + 1) (remaining - min chunk_size remaining)

/-- Total bytes read from the archive while decompressing one entry. -/
def decompress_consumed (chunk_size : Nat) (bt : Nat → Nat) (index remaining : Nat) : Nat :=
  decompress_consumed_loop chunk_size bt remaining index remaining

/-- Parsed header fields, the subset of ARCHIVEINFO that read_header fills. -/
structure ArchiveInfo where
  version_high : Nat
  version_low : Nat
  compression_type : Codec
  toc_length : Nat
  toc_entries : Nat
  block_size : Nat
  archive_flags : Nat
deriving DecidableEq, Repr

/-- Parse of the 32-byte PSARC header by read_header in unpak.c.  The function
fails only when fewer than 32 bytes can be read; it never inspects the magic
field.  The codec is lzma exactly when bytes 8..11 spell lzma, otherwise zlib. -/
def read_header (data : List Nat) : Option ArchiveInfo :=
  if 32 ≤ data.length then
    some { version_high := ntohs (data.drop 4)
           version_low := ntohs (data.drop 6)
           compression_type :=
             if (data.drop 8).take 4 = [0x6C, 0x7A, 0x6D, 0x61] then Codec.lzma else Codec.zlib
           toc_length := ntohl (data.drop 12)
           toc_entries := ntohl (data.drop 20)
           block_size := ntohl (data.drop 24)
           archive_flags := ntohl (data.drop 28) }
  else none

/-- Codec tag bytes chosen by write_header in pak.c: lzma for the LZMA codec
and zlib for every other compression type, store included. -/
def write_header_compression_tag (c : Codec) : List Nat :=
  if c = Codec.lzma then [0x6C, 0x7A, 0x6D, 0x61] else [0x7A, 0x6C, 0x69, 0x62]

/-- Outcome recorded for one entry by the extraction loop of decompress_files
in unpak.c. -/
inductive ExtractOutcome where
  | ok
  | skipped
  | failed
deriving DecidableEq, Repr

/-- Decision taken by decompress_files for one entry whose output path may
already exist: with the file present and overwrite_flag clear, the entry is
skipped when skip_existing_files_flag is set and failed otherwise; in every
other case the output is opened with mode wb (truncating any previous
content) and the entry succeeds exactly when the open and the decompression
succeed. -/
def extract_entry_outcome (fileexists overwrite_flag skip_existing_files_flag open_ok dec_ok : Bool) :
    ExtractOutcome :=
  if fileexists ∧ ¬ overwrite_flag then
    if skip_existing_files_flag then ExtractOutcome.skipped else ExtractOutcome.failed
  else if open_ok then
    if dec_ok then ExtractOutcome.ok else ExtractOutcome.failed
  else ExtractOutcome.failed

/-- Value of the _errors counter after the loop of decompress_files. -/
def count_errors (outs : List ExtractOutcome) : Nat :=
  (outs.filter (fun x => x = ExtractOutcome.failed)).length

/-- Value of the _successful counter after the loop of decompress_files: both
extracted and skipped entries increment it. -/
def count_successful (outs : List ExtractOutcome) : Nat :=
  (outs.filter (fun x => x = ExtractOutcome.ok ∨ x = ExtractOutcome.skipped)).length

/-- Return value of decompress_files: 2 when _errors is positive, else 0. -/
def decompress_files_ret (outs : List ExtractOutcome) : Nat :=
  if 0 < count_errors outs then 2 else 0

/-- Abstract interface to the external codec libraries.  zenc is the byte
stream produced by compress2 at the configured level, cb is compressBound,
xenc is the XZ stream produced by the lzma_stream_encoder / lzma_code pair
(none when initialisation or coding fails), zdec is uncompress and xdec is
the lzma stream decoder.  These live outside the repository; the theorems
state which of their documented properties are used. -/
structure Oracle where
  zenc : List Nat → List Nat
  cb : Nat → Nat
  xenc : List Nat → Option (List Nat)
  zdec : List Nat → Option (List Nat)
  xdec : List Nat → Option (List Nat)

/-- Splitting of an entry into blocks: block k covers bytes k*bs up to the
next multiple of bs or the end, as read by the while loops of compress_entry
and compress_entry_multi.  Structural fuel equal to the list length is exact
for every positive bs since each step consumes at least one byte. -/
def chunksAux (bs : Nat) : Nat → List Nat → List (List Nat)
  | 0, _ => []
  | fuel + 1, l => if l = [] then [] else l.take bs :: chunksAux bs fuel (l.drop bs)

/-- Block decomposition of an entry of the given content. -/
def chunks (bs : Nat) (l : List Nat) : List (List Nat) :=
  chunksAux bs l.length l

/-- Payload emitted for one block, the compress-or-store decision shared by
compress_entry and compress_entry_thread in pak.c.  cap is the capacity of
the scratch output buffer (dest_len before the call); the encoder reports
w = min(stream length, cap) written bytes.  When w is at least the natural
input length the raw input is kept (the fallback), otherwise the w reported
bytes of encoder output are written.  A failing LZMA encoder also stores the
raw block.  The store codec always copies the input. -/
def emit_block (o : Oracle) (c : Codec) (cap : Nat) (b : List Nat) : List Nat :=
  match c with
  | Codec.store => b
  | Codec.zlib =>
    let e := o.zenc b
    let w := min e.length cap
    if b.length ≤ w then b else e.take w
  | Codec.lzma =>
    match o.xenc b with
    | none => b
    | some e =>
      let w := min e.length cap
      if b.length ≤ w then b else e.take w

/-- Scratch capacity used by the synchronous path compress_entry: zlib gets
compressBound(bytes_read), LZMA gets chunk_size (the block size). -/
def sync_cap (o : Oracle) (c : Codec) (bs n : Nat) : Nat :=
  match c with
  | Codec.store => 0
  | Codec.zlib => o.cb n
  | Codec.lzma => bs

/-- Per-block emission of the synchronous path compress_entry. -/
def compress_entry_block (o : Oracle) (c : Codec) (bs : Nat) (b : List Nat) : List Nat :=
  emit_block o c (sync_cap o c bs b.length) b

/-- Per-block emission of the worker path compress_entry_thread, whose zlib
and LZMA scratch capacity is block_size * 2. -/
def compress_entry_thread_block (o : Oracle) (c : Codec) (bs : Nat) (b : List Nat) : List Nat :=
  emit_block o c (2 * bs) b

/-- Mutable creation state threaded through create_archive: the running
total_size of emitted bytes, the next blocktable index, the data stream
written after the reserved header and TOC region, and the in-memory
blocktable values in index order. -/
structure PakState where
  total_size : Nat
  blocktable_idx : Nat
  out : List Nat
  slots : List Nat
deriving DecidableEq, Repr

/-- Fields of one FILEINFO record as filled by the creation path. -/
structure EntryMeta where
  offset : Nat
  block_index : Nat
  num_blocks : Nat
  compressed_size : Nat
  uncompressed_size : Nat
deriving DecidableEq, Repr

/-- Effect of compressing one entry (compress_entry, or the per-block commits
of compress_entry_multi in submission order): the blocks of the content are
emitted in order, each payload is appended to the archive stream, its length
is recorded in the next blocktable slot, and the entry records its starting
offset, first block index, block count and summed compressed size.  An entry
of zero size emits nothing and gets compressed_size 0. -/
def compress_entry_model (emit : List Nat → List Nat) (bs : Nat) (content : List Nat)
    (st : PakState) : PakState × EntryMeta :=
  let ps := (chunks bs content).map emit
  ({ total_size := st.total_size + (ps.map List.length).sum
     blocktable_idx := st.blocktable_idx + ps.length
     out := st.out ++ ps.flatten
     slots := st.slots ++ ps.map List.length },
   { offset := st.total_size
     block_index := st.blocktable_idx
     num_blocks := ps.length
     compressed_size := (ps.map List.length).sum
     uncompressed_size := content.length })

/-- Sequential compression of a list of entries, the per-file loop of
create_archive. -/
def create_entries (emit : List Nat → List Nat) (bs : Nat) :
    List (List Nat) → PakState → PakState × List EntryMeta
  | [], st => (st, [])
  | c :: rest, st =>
    let r1 := compress_entry_model emit bs c st
    let r2 := create_entries emit bs rest r1.1
    (r2.1, r1.2 :: r2.2)

/-- Codec recognised from the leading bytes of a block payload by
decompress_entry in unpak.c. -/
inductive Detected where
  | zlib
  | lzma2
  | raw
deriving DecidableEq, Repr

/-- Signature check of decompress_entry: zlib needs more than two bytes with
byte 0 equal to 0x78 and byte 1 in the set 0x01, 0x5E, 0x9C, 0xDA; XZ needs
more than six bytes starting with the six-byte stream magic; anything else is
copied verbatim.  The codec named in the archive header is never consulted. -/
def detect_block_codec (p : List Nat) : Detected :=
  if 2 < p.length ∧ p.getD 0 0 = 0x78 ∧
      (p.getD 1 0 = 0x01 ∨ p.getD 1 0 = 0x5E ∨ p.getD 1 0 = 0x9C ∨ p.getD 1 0 = 0xDA) then
    Detected.zlib
  else if 6 < p.length ∧ p.take 6 = [0xFD, 0x37, 0x7A, 0x58, 0x5A, 0x00] then
    Detected.lzma2
  else Detected.raw

/-- Claim C5 stated in the words of the specification, with no payload-length
guards: zlib when byte 0 is 0x78 and byte 1 is in the set, LZMA2 when the
leading bytes equal the XZ magic, else verbatim.  Compared against
detect_block_codec, which is what the source does. -/
def claimed_block_codec (p : List Nat) : Detected :=
  if p.getD 0 0 = 0x78 ∧
      (p.getD 1 0 = 0x01 ∨ p.getD 1 0 = 0x5E ∨ p.getD 1 0 = 0x9C ∨ p.getD 1 0 = 0xDA) then
    Detected.zlib
  else if p.take 6 = [0xFD, 0x37, 0x7A, 0x58, 0x5A, 0x00] then
    Detected.lzma2
  else Detected.raw

/-- Bytes appended to the output for one block by decompress_entry: a payload
with a zlib signature is inflated (failing when uncompress fails or the
result exceeds the chunk capacity n), a payload with the XZ magic is decoded
by liblzma under the same capacity (the file branch then writes dest_len = n
bytes, so a short decode is padded from the scratch buffer, modelled as
zeros), and any other payload is copied verbatim. -/
def read_block (o : Oracle) (p : List Nat) (n : Nat) : Option (List Nat) :=
  match detect_block_codec p with
  | Detected.zlib =>
    match o.zdec p with
    | none => none
    | some d => if d.length ≤ n then some d else none
  | Detected.lzma2 =>
    match o.xdec p with
    | none => none
    | some d => if d.length ≤ n then some (d ++ List.replicate (n - d.length) 0) else none
  | Detected.raw => some p

/-- Read loop of decompress_entry: starting at byte pos of the data region
with block index idx and remaining bytes to produce, each pass resolves the
next slot, reads that many payload bytes (failing on a short read), converts
them through read_block with chunk capacity min(chunk_size, remaining), and
appends the result.  Fuel equal to remaining is exact for positive bs. -/
def decompress_entry_loop (o : Oracle) (bs : Nat) (bt : Nat → Nat) (data : List Nat) :
    Nat → Nat → Nat → Nat → Option (List Nat)
  | 0, _, _, remaining => if remaining = 0 then some [] else none
  | fuel + 1, idx, pos, remaining =>
    if remaining = 0 then some []
    else
      let sz := resolve_block_size bs (bt idx)
      if pos + sz ≤ data.length then
        match read_block o ((data.drop pos).take sz) (min bs remaining) with
        | none => none
        | some d =>
          match decompress_entry_loop o bs bt data fuel (idx + 1) (pos + sz)
              (remaining - min bs remaining) with
          | none => none
          | some rest => some (d ++ rest)
      else none

/-- Decompression of one entry from the data region (decompress_entry). -/
def decompress_entry_model (o : Oracle) (bs : Nat) (bt : Nat → Nat) (data : List Nat)
    (idx pos remaining : Nat) : Option (List Nat) :=
  decompress_entry_loop o bs bt data remaining idx pos remaining

/-- Filename normalisation applied by create_archive before a name enters the
manifest (the non-Windows branch): with trim_path_flag the name is cut back
to its last slash inclusive, then with the absolute-path flag a leading slash
is ensured, and without it every leading slash is removed.  Byte 47 is the
slash. -/
def normalize_name (absflag trimflag : Bool) (name : List Nat) : List Nat :=
  let t := if trimflag ∧ name.contains 47 then
             47 :: (name.reverse.takeWhile (fun x => x ≠ 47)).reverse
           else name
  if absflag then (if t.headD 0 = 47 then t else 47 :: t)
  else t.dropWhile (fun x => x = 47)

/-- Manifest bytes built by create_archive: the stored names joined by the
byte 0x0A, with no separator after the last. -/
def build_manifest : List (List Nat) → List Nat
  | [] => []
  | [n] => n
  | n :: rest => n ++ 10 :: build_manifest rest

/-- One pass of the strtok loop of read_filenames: skip leading 0x0A bytes,
stop at the end, otherwise take the token up to the next 0x0A and continue.
Fuel equal to the byte count is exact since every produced token is
nonempty. -/
def split_tokens_loop : Nat → List Nat → List (List Nat)
  | 0, _ => []
  | fuel + 1, bytes =>
    let rest := bytes.dropWhile (fun x => x = 10)
    if rest = [] then []
    else rest.takeWhile (fun x => x ≠ 10) :: split_tokens_loop fuel (rest.dropWhile (fun x => x ≠ 10))

/-- Token list recovered from the decompressed manifest by read_filenames;
strtok never yields empty tokens, so consecutive separators collapse. -/
def split_tokens (bytes : List Nat) : List (List Nat) :=
  split_tokens_loop bytes.length bytes

/-- Result of create_archive relevant to round trips: the in-memory
blocktable, the data region written after the reserved header and TOC space,
the manifest entry record, the file entry records, and the names stored in
the manifest. -/
structure CreateResult where
  blocktable : List Nat
  data : List Nat
  manifest_meta : EntryMeta
  file_metas : List EntryMeta
  filenames : List (List Nat)

/-- Creation pipeline of create_archive at the data level: normalise the
names, build the manifest, compress it as entry 0 starting at offset 0 and
block index 0, then compress each file in order. -/
def create_archive_model (emit : List Nat → List Nat) (bs : Nat) (absflag trimflag : Bool)
    (names contents : List (List Nat)) : CreateResult :=
  let stored := names.map (normalize_name absflag trimflag)
  let manifest := build_manifest stored
  let r0 := compress_entry_model emit bs manifest ⟨0, 0, [], []⟩
  let r1 := create_entries emit bs contents r0.1
  { blocktable := r1.1.slots
    data := r1.1.out
    manifest_meta := r0.2
    file_metas := r1.2
    filenames := stored }

/-- Extraction of a single entry from its TOC record, as decompress_files and
read_filenames do through decompress_entry. -/
def extract_entry (o : Oracle) (bs : Nat) (bt : Nat → Nat) (data : List Nat) (m : EntryMeta) :
    Option (List Nat) :=
  decompress_entry_model o bs bt data m.block_index m.offset m.uncompressed_size

/-- Extraction of every file entry in TOC order. -/
def extract_all (o : Oracle) (bs : Nat) (bt : Nat → Nat) (data : List Nat)
    (ms : List EntryMeta) : Option (List (List Nat)) :=
  ms.mapM (extract_entry o bs bt data)

/-- In-memory blocktable seen by the reader: each writer slot value after its
trip through write_blocktable and read_blocktable. -/
def reader_blocktable (bs : Nat) (slots : List Nat) : Nat → Nat :=
  fun i => blocktable_slot_file_roundtrip (get_blocktable_item_size bs) (slots.getD i 0)

/-- Round-trip property of claim C1 for one parameter choice: creating the
archive with the synchronous pipeline and then extracting yields every file
content byte-identical and recovers exactly the normalised filenames from
the manifest. -/
def round_trip_ok (o : Oracle) (c : Codec) (bs : Nat) (absflag trimflag : Bool)
    (names contents : List (List Nat)) : Prop :=
  let r := create_archive_model (compress_entry_block o c bs) bs absflag trimflag names contents
  let bt := reader_blocktable bs r.blocktable
  extract_all o bs bt r.data r.file_metas = some contents ∧
  (extract_entry o bs bt r.data r.manifest_meta).map split_tokens = some r.filenames

/-- Inverse-pair contract of the external codec libraries, the only property
claim C1 as stated may assume of them. -/
def OracleInverses (o : Oracle) : Prop :=
  (∀ b, o.zdec (o.zenc b) = some b) ∧ (∀ b e, o.xenc b = some e → o.xdec e = some b)

/-- Documented properties of the external codecs needed for the amended round
trip: decode inverts encode, a strictly shrinking encoder output carries the
signature of its own codec, and compressBound dominates both the input
length and the compress2 output length. -/
structure OracleSound (o : Oracle) : Prop where
  zlib_inv : ∀ b, o.zdec (o.zenc b) = some b
  zlib_sig : ∀ b, (o.zenc b).length < b.length → detect_block_codec (o.zenc b) = Detected.zlib
  xz_inv : ∀ b e, o.xenc b = some e → o.xdec e = some b
  xz_sig : ∀ b e, o.xenc b = some e → e.length < b.length → detect_block_codec e = Detected.lzma2
  cb_ge : ∀ n, n ≤ o.cb n
  zenc_cb : ∀ b, (o.zenc b).length ≤ o.cb b.length

/-- Parse-after-write of one 16-bit block-table slot recovers the value
modulo 65536. -/
lemma ntohs_htons (v : Nat) : ntohs (htons v) = v % 65536 := by
  simp only [ntohs, htons, List.getD_cons_zero, List.getD_cons_succ]
  omega

/-- Parse-after-write of one 24-bit block-table slot recovers the value
modulo 2 to the 24. -/
lemma ntoh24_hton24 (v : Nat) : ntoh24 (hton24 v) = v % 16777216 := by
  simp only [ntoh24, hton24, List.getD_cons_zero, List.getD_cons_succ]
  omega

/-- Parse-after-write of one 32-bit block-table slot recovers the value
modulo 2 to the 32. -/
lemma ntohl_htonl (v : Nat) : ntohl (htonl v) = v % 4294967296 := by
  simp only [ntohl, htonl, List.getD_cons_zero, List.getD_cons_succ]
  omega

/-- File round trip of one slot at item width 2 reduces the value modulo
2 to the 16. -/
lemma slot_rt_w2 (v : Nat) : blocktable_slot_file_roundtrip 2 v = v % 65536 := by
  have h : write_blocktable_item 2 v = htons (v % 65536) := by norm_num [write_blocktable_item]
  have h2 : read_blocktable_item 2 (htons (v % 65536)) = ntohs (htons (v % 65536)) := by
    norm_num [read_blocktable_item]
  rw [blocktable_slot_file_roundtrip, h, h2, ntohs_htons]
  omega

/-- File round trip of one slot at item width 3 reduces the value modulo
2 to the 20, the mask the source applies before hton24. -/
lemma slot_rt_w3 (v : Nat) : blocktable_slot_file_roundtrip 3 v = v % 1048576 := by
  have h : write_blocktable_item 3 v = hton24 (v % 1048576) := by norm_num [write_blocktable_item]
  have h2 : read_blocktable_item 3 (hton24 (v % 1048576)) = ntoh24 (hton24 (v % 1048576)) := by
    norm_num [read_blocktable_item]
  rw [blocktable_slot_file_roundtrip, h, h2, ntoh24_hton24]
  omega

/-- Resolution applied after the file round trip of a slot is the identity on
positive values up to the block size, for the block sizes of the claims. -/
lemma resolve_slot_roundtrip (bs v : Nat) (hbs : bs = 1024 ∨ bs = 65536 ∨ bs = 131072)
    (h0 : 0 < v) (hv : v ≤ bs) :
    resolve_block_size bs (blocktable_slot_file_roundtrip (get_blocktable_item_size bs) v) = v := by
  rcases hbs with rfl | rfl | rfl
  · have hw : get_blocktable_item_size 1024 = 2 := by decide
    rw [hw, slot_rt_w2, Nat.mod_eq_of_lt (by omega)]
    simp only [resolve_block_size, if_neg (show ¬ v = 0 by omega)]
  · have hw : get_blocktable_item_size 65536 = 2 := by decide
    rw [hw, slot_rt_w2]
    rcases eq_or_lt_of_le hv with heq | hlt
    · subst heq
      decide
    · rw [Nat.mod_eq_of_lt hlt]
      simp only [resolve_block_size, if_neg (show ¬ v = 0 by omega)]
  · have hw : get_blocktable_item_size 131072 = 3 := by decide
    rw [hw, slot_rt_w3, Nat.mod_eq_of_lt (by omega)]
    simp only [resolve_block_size, if_neg (show ¬ v = 0 by omega)]

/-- Claim C3 counterexample: with block_size 1024 (item width 2) a block that
fills the whole block size is serialized as the big-endian bytes 04 00, not
as the sentinel 00 00 that the claim prescribes. -/
theorem c3_blocktable_sentinel_counterexample :
    write_blocktable_item (get_blocktable_item_size 1024) 1024 = [4, 0] ∧
    claimed_blocktable_item 1024 1024 = [0, 0] ∧
    write_blocktable_item (get_blocktable_item_size 1024) 1024 ≠
      claimed_blocktable_item 1024 1024 :=
  ⟨by decide, by decide, by decide⟩

/-- Claim C3, amended: write_blocktable has no sentinel branch; it writes the
stored count reduced modulo 2^8, 2^16, 2^20 (twenty bits, not twenty-four)
or 2^32 for widths 1..4, big-endian in exactly W bytes.  The sentinel 0
appears exactly when that reduction vanishes, as for emitted = block_size =
65536; for block_size 1024 a full block is written as 1024 itself.  For the
block sizes 1024, 65536 and 131072 the reader still recovers every emitted
count in (0, block_size] after resolving. -/
theorem c3_blocktable_item_amended : ∀ v : Nat,
    write_blocktable_item 1 v = be_bytes 1 (v % 256) ∧
    write_blocktable_item 2 v = be_bytes 2 (v % 65536) ∧
    write_blocktable_item 3 v = be_bytes 3 (v % 1048576) ∧
    write_blocktable_item 4 v = be_bytes 4 (v % 4294967296) ∧
    write_blocktable_item (get_blocktable_item_size 65536) 65536 = [0, 0] ∧
    (∀ bs, bs = 1024 ∨ bs = 65536 ∨ bs = 131072 → 0 < v → v ≤ bs →
      resolve_block_size bs (blocktable_slot_file_roundtrip (get_blocktable_item_size bs) v) = v) := by
  intro v
  refine ⟨by norm_num [write_blocktable_item, be_bytes],
          by norm_num [write_blocktable_item, be_bytes, htons],
          by norm_num [write_blocktable_item, be_bytes, hton24],
          by norm_num [write_blocktable_item, be_bytes, htonl],
          by decide,
          fun bs hbs h0 hv => resolve_slot_roundtrip bs v hbs h0 hv⟩

/-- Claim C3 amended, witness: concrete evaluation of the round trip for a
full-size block at block_size 131072. -/
theorem c3_blocktable_item_amended_witness :
    resolve_block_size 131072
      (blocktable_slot_file_roundtrip (get_blocktable_item_size 131072) 131072) = 131072 :=
  (c3_blocktable_item_amended 131072).2.2.2.2.2 131072 (Or.inr (Or.inr rfl)) (by decide) (by decide)

/-- Read loop byte count equals the slot sum of get_compressed_size, proved
with fuel at least the remaining count. -/
lemma decompress_consumed_loop_eq (bs : Nat) (hbs : 0 < bs) (bt : Nat → Nat) :
    ∀ fuel idx r, r ≤ fuel →
      decompress_consumed_loop bs bt fuel idx r = sum_resolved bs bt idx ((r + bs - 1) / bs) := by
  intro fuel
  induction fuel with
  | zero =>
    intro idx r hr
    have : r = 0 := Nat.le_zero.mp hr
    subst this
    have : (0 + bs - 1) / bs = 0 := Nat.div_eq_of_lt (by omega)
    rw [this]
    rfl
  | succ f ih =>
    intro idx r hr
    by_cases h0 : r = 0
    · subst h0
      have : (0 + bs - 1) / bs = 0 := Nat.div_eq_of_lt (by omega)
      rw [this]
      rfl
    · have hceil : (r + bs - 1) / bs = (r - min bs r + bs - 1) / bs + 1 := by
        rcases Nat.lt_or_ge r bs with hlt | hge
        · have h1 : min bs r = r := by omega
          rw [h1]
          have h2 : (r - r + bs - 1) / bs = 0 := Nat.div_eq_of_lt (by omega)
          rw [h2]
          have h3 : r + bs - 1 = (r - 1) + bs := by omega
          rw [h3, Nat.add_div_right _ hbs]
          have : (r - 1) / bs = 0 := Nat.div_eq_of_lt (by omega)
          omega
        · have h1 : min bs r = bs := by omega
          rw [h1]
          have h3 : r + bs - 1 = (r - bs + bs - 1) + bs := by omega
          rw [h3, Nat.add_div_right _ hbs]
      rw [hceil]
      show (if r = 0 then 0 else _) = _
      rw [if_neg h0]
      rw [ih (idx + 1) (r - min bs r) (by omega)]
      rfl

/-- Claim C4: for every entry, summing the resolved block-size table slots of
its block range equals the value computed by get_compressed_size, and the
read loop of decompress_entry consumes exactly that many bytes from the
archive. -/
theorem c4_blocktable_consistency (bs : Nat) (bt : Nat → Nat) (idx usize : Nat) (hbs : 0 < bs) :
    sum_resolved bs bt idx ((usize + bs - 1) / bs) = get_compressed_size bs bt idx usize ∧
    decompress_consumed bs bt idx usize = get_compressed_size bs bt idx usize := by
  have h1 : sum_resolved bs bt idx ((usize + bs - 1) / bs) = get_compressed_size bs bt idx usize := by
    unfold get_compressed_size
    by_cases h : usize ≠ 0
    · rw [if_pos h]
    · rw [if_neg h]
      push_neg at h
      subst h
      have : (0 + bs - 1) / bs = 0 := Nat.div_eq_of_lt (by omega)
      rw [this]
      rfl
  exact ⟨h1, by rw [decompress_consumed, decompress_consumed_loop_eq bs hbs bt usize idx usize le_rfl, h1]⟩

/-- Claim C4, witness: two blocks of a five-byte entry at chunk size 2 with a
sentinel slot in range. -/
theorem c4_blocktable_consistency_witness :
    sum_resolved 2 (fun i => i % 2) 3 ((5 + 2 - 1) / 2) = get_compressed_size 2 (fun i => i % 2) 3 5 ∧
    decompress_consumed 2 (fun i => i % 2) 3 5 = get_compressed_size 2 (fun i => i % 2) 3 5 :=
  c4_blocktable_consistency 2 (fun i => i % 2) 3 5 (by decide)

/-- Claim C6 counterexample: a 32-byte header whose magic is XXXX instead of
PSAR is accepted by read_header and parsed as a valid archive header. -/
theorem c6_invalid_magic_counterexample :
    (read_header ([88, 88, 88, 88] ++ List.replicate 28 0)).isSome = true ∧
    ([88, 88, 88, 88] ++ List.replicate 28 0).take 4 ≠ [0x50, 0x53, 0x41, 0x52] :=
  ⟨by decide, by decide⟩

/-- Claim C6, amended: read_header never inspects the magic field; it fails
exactly when fewer than the 32 header bytes are available, and otherwise
interprets the remaining fields as a valid archive header. -/
theorem c6_read_header_amended : ∀ data : List Nat,
    read_header data = none ↔ data.length < 32 := by
  intro data
  unfold read_header
  by_cases h : 32 ≤ data.length
  · rw [if_pos h]
    simp
    omega
  · rw [if_neg h]
    simp
    omega

/-- Claim C7: the writer stores the tag lzma exactly when the creation codec
is LZMA and the tag zlib for every other codec, store included; the reader
maps the tag lzma to the LZMA codec and every other tag to zlib. -/
theorem c7_header_codec_tag : ∀ (c : Codec) (data : List Nat) (ai : ArchiveInfo),
    read_header data = some ai →
    ((write_header_compression_tag c = [0x6C, 0x7A, 0x6D, 0x61]) ↔ c = Codec.lzma) ∧
    (c ≠ Codec.lzma → write_header_compression_tag c = [0x7A, 0x6C, 0x69, 0x62]) ∧
    (ai.compression_type = Codec.lzma ↔ (data.drop 8).take 4 = [0x6C, 0x7A, 0x6D, 0x61]) ∧
    ((data.drop 8).take 4 ≠ [0x6C, 0x7A, 0x6D, 0x61] → ai.compression_type = Codec.zlib) := by
  intro c data ai h
  unfold read_header at h
  split at h
  · cases h
    refine ⟨?_, ?_, ?_, ?_⟩
    · cases c <;> simp [write_header_compression_tag]
    · cases c <;> simp [write_header_compression_tag]
    · by_cases htag : (data.drop 8).take 4 = [0x6C, 0x7A, 0x6D, 0x61] <;> simp [htag]
    · intro htag
      simp [htag]
  · cases h

/-- Claim C7, witness: concrete 32-byte header with a zlib tag. -/
theorem c7_header_codec_tag_witness :
    write_header_compression_tag Codec.store = [0x7A, 0x6C, 0x69, 0x62] :=
  (c7_header_codec_tag Codec.store (List.replicate 32 0)
    { version_high := 0, version_low := 0, compression_type := Codec.zlib,
      toc_length := 0, toc_entries := 0, block_size := 0, archive_flags := 0 }
    (by decide)).2.1 (by decide)

/-- Claim C8: extraction policy for an existing output path and the exit
status of decompress_files.  With the file present and overwrite clear, the
skip flag turns the entry into a skipped success and otherwise the entry
fails; with overwrite set the file is truncated and rewritten and the entry
succeeds exactly when open and decompression succeed; skipped entries count
toward _successful, failures toward _errors, and the return value is 2
exactly when some entry failed and 0 when none did. -/
theorem c8_extract_policy :
    (∀ oo dk, extract_entry_outcome true false true oo dk = ExtractOutcome.skipped) ∧
    (∀ oo dk, extract_entry_outcome true false false oo dk = ExtractOutcome.failed) ∧
    (∀ fe sk dk, extract_entry_outcome fe true sk true dk =
      (if dk then ExtractOutcome.ok else ExtractOutcome.failed)) ∧
    (∀ outs, count_successful (outs ++ [ExtractOutcome.skipped]) = count_successful outs + 1) ∧
    (∀ outs, count_errors (outs ++ [ExtractOutcome.failed]) = count_errors outs + 1) ∧
    (∀ outs, (decompress_files_ret outs = 2 ↔ ExtractOutcome.failed ∈ outs) ∧
      (decompress_files_ret outs = 0 ↔ ExtractOutcome.failed ∉ outs)) := by
  have hmem : ∀ outs : List ExtractOutcome, 0 < count_errors outs ↔ ExtractOutcome.failed ∈ outs := by
    intro outs
    unfold count_errors
    rw [List.length_pos]
    constructor
    · intro h
      rcases List.exists_mem_of_ne_nil _ h with ⟨x, hx⟩
      have := List.mem_filter.mp hx
      have hx2 : x = ExtractOutcome.failed := by simpa using this.2
      exact hx2 ▸ this.1
    · intro h hnil
      have : ExtractOutcome.failed ∈ List.filter (fun x => decide (x = ExtractOutcome.failed)) outs :=
        List.mem_filter.mpr ⟨h, by simp⟩
      rw [hnil] at this
      cases this
  refine ⟨fun oo dk => by simp [extract_entry_outcome],
          fun oo dk => by simp [extract_entry_outcome],
          fun fe sk dk => by cases fe <;> simp [extract_entry_outcome],
          fun outs => by simp [count_successful, List.filter_append],
          fun outs => by simp [count_errors, List.filter_append],
          fun outs => ?_⟩
  constructor
  · unfold decompress_files_ret
    by_cases h : 0 < count_errors outs
    · rw [if_pos h]
      simp [(hmem outs).mp h]
    · rw [if_neg h]
      have : ExtractOutcome.failed ∉ outs := fun hm => h ((hmem outs).mpr hm)
      simp [this]
  · unfold decompress_files_ret
    by_cases h : 0 < count_errors outs
    · rw [if_pos h]
      simp [(hmem outs).mp h]
    · rw [if_neg h]
      have : ExtractOutcome.failed ∉ outs := fun hm => h ((hmem outs).mpr hm)
      simp [this]

/-- Claim C10: a zero-size entry emits no archive bytes and no block-table
slots and records compressed_size 0 at creation; get_compressed_size returns
0 for it; and the per-block read loop performs no reads and succeeds with an
empty result. -/
theorem c10_zero_size_entry : ∀ (emit : List Nat → List Nat) (bs : Nat) (st : PakState)
    (o : Oracle) (bt : Nat → Nat) (idx pos : Nat) (data : List Nat),
    compress_entry_model emit bs [] st =
      (st, { offset := st.total_size, block_index := st.blocktable_idx,
             num_blocks := 0, compressed_size := 0, uncompressed_size := 0 }) ∧
    get_compressed_size bs bt idx 0 = 0 ∧
    decompress_entry_model o bs bt data idx pos 0 = some [] ∧
    decompress_consumed bs bt idx 0 = 0 := by
  intro emit bs st o bt idx pos data
  refine ⟨?_, by simp [get_compressed_size], rfl, rfl⟩
  cases st
  simp [compress_entry_model, chunks, chunksAux]

/-- Trivial oracle used to evaluate reader-side facts on concrete inputs. -/
def oracle0 : Oracle :=
  { zenc := fun b => b
    cb := fun n => n
    xenc := fun _ => none
    zdec := fun _ => none
    xdec := fun _ => none }

/-- Concrete well-behaved oracle for witnesses: both encoders prepend their
signature (and a fixed-size trailer), so they never shrink their input and
the fallback always stores raw bytes; the decoders strip exactly what the
encoders added. -/
def oracle1 : Oracle :=
  { zenc := fun b => [0x78, 0x9C] ++ b ++ [0, 0, 0, 0]
    cb := fun n => n + 13
    xenc := fun b => some ([0xFD, 0x37, 0x7A, 0x58, 0x5A, 0x00] ++ b ++ [0, 0, 0, 0, 0, 0])
    zdec := fun p => if 6 ≤ p.length ∧ p.take 2 = [0x78, 0x9C] then
                       some ((p.drop 2).take ((p.drop 2).length - 4))
                     else none
    xdec := fun p => if 12 ≤ p.length ∧ p.take 6 = [0xFD, 0x37, 0x7A, 0x58, 0x5A, 0x00] then
                       some ((p.drop 6).take ((p.drop 6).length - 6))
                     else none }

/-- Claim C5 counterexample: a two-byte payload carrying the zlib signature
and a six-byte payload equal to the XZ magic are both copied verbatim by the
source, while the claimed rule selects zlib and LZMA2 for them. -/
theorem c5_detection_counterexample :
    detect_block_codec [0x78, 0x01] = Detected.raw ∧
    claimed_block_codec [0x78, 0x01] = Detected.zlib ∧
    detect_block_codec [0xFD, 0x37, 0x7A, 0x58, 0x5A, 0x00] = Detected.raw ∧
    claimed_block_codec [0xFD, 0x37, 0x7A, 0x58, 0x5A, 0x00] = Detected.lzma2 :=
  ⟨by decide, by decide, by decide, by decide⟩

/-- Claim C5, amended: the codec is chosen from the leading payload bytes
with length guards; zlib requires more than two bytes besides the 0x78 pair,
LZMA2 requires more than six bytes besides the XZ magic, and every other
payload is returned verbatim whatever the archive header says. -/
theorem c5_detection_amended : ∀ p : List Nat,
    (detect_block_codec p = Detected.zlib ↔
      (2 < p.length ∧ p.getD 0 0 = 0x78 ∧
        (p.getD 1 0 = 0x01 ∨ p.getD 1 0 = 0x5E ∨ p.getD 1 0 = 0x9C ∨ p.getD 1 0 = 0xDA))) ∧
    (detect_block_codec p = Detected.lzma2 ↔
      (¬ (2 < p.length ∧ p.getD 0 0 = 0x78 ∧
          (p.getD 1 0 = 0x01 ∨ p.getD 1 0 = 0x5E ∨ p.getD 1 0 = 0x9C ∨ p.getD 1 0 = 0xDA)) ∧
        6 < p.length ∧ p.take 6 = [0xFD, 0x37, 0x7A, 0x58, 0x5A, 0x00])) ∧
    (detect_block_codec p = Detected.raw → ∀ (o : Oracle) (n : Nat), read_block o p n = some p) := by
  intro p
  by_cases h1 : 2 < p.length ∧ p.getD 0 0 = 0x78 ∧
      (p.getD 1 0 = 0x01 ∨ p.getD 1 0 = 0x5E ∨ p.getD 1 0 = 0x9C ∨ p.getD 1 0 = 0xDA)
  · have hd : detect_block_codec p = Detected.zlib := by
      unfold detect_block_codec
      rw [if_pos h1]
    refine ⟨⟨fun _ => h1, fun _ => hd⟩, ?_, fun h => ?_⟩
    · refine iff_of_false (fun h => ?_) (fun hr => hr.1 h1)
      rw [hd] at h
      exact absurd h (by decide)
    · rw [hd] at h
      exact absurd h (by decide)
  · by_cases h2 : 6 < p.length ∧ p.take 6 = [0xFD, 0x37, 0x7A, 0x58, 0x5A, 0x00]
    · have hd : detect_block_codec p = Detected.lzma2 := by
        unfold detect_block_codec
        rw [if_neg h1, if_pos h2]
      refine ⟨?_, ⟨fun _ => ⟨h1, h2.1, h2.2⟩, fun _ => hd⟩, fun h => ?_⟩
      · refine iff_of_false (fun h => ?_) h1
        rw [hd] at h
        exact absurd h (by decide)
      · rw [hd] at h
        exact absurd h (by decide)
    · have hd : detect_block_codec p = Detected.raw := by
        unfold detect_block_codec
        rw [if_neg h1, if_neg h2]
      refine ⟨iff_of_false (fun h => ?_) h1,
              iff_of_false (fun h => ?_) (fun hr => h2 ⟨hr.2.1, hr.2.2⟩), fun _ o n => ?_⟩
      · rw [hd] at h
        exact absurd h (by decide)
      · rw [hd] at h
        exact absurd h (by decide)
      · simp [read_block, hd]

/-- Claim C5 amended, witness: a signature-free three-byte payload is passed
through verbatim. -/
theorem c5_detection_amended_witness : read_block oracle0 [1, 2, 3] 3 = some [1, 2, 3] :=
  (c5_detection_amended [1, 2, 3]).2.2 (by decide) oracle0 3

/-- Zlib branch of emit_block written as a single conditional. -/
lemma emit_block_zlib (o : Oracle) (cap : Nat) (b : List Nat) :
    emit_block o Codec.zlib cap b =
      if b.length ≤ min (o.zenc b).length cap then b
      else (o.zenc b).take (min (o.zenc b).length cap) := rfl

/-- Store branch of emit_block. -/
lemma emit_block_store (o : Oracle) (cap : Nat) (b : List Nat) :
    emit_block o Codec.store cap b = b := rfl

/-- LZMA branch of emit_block for a successful encode. -/
lemma emit_block_lzma (o : Oracle) (cap : Nat) (b : List Nat) (e : List Nat)
    (he : o.xenc b = some e) :
    emit_block o Codec.lzma cap b =
      if b.length ≤ min e.length cap then b else e.take (min e.length cap) := by
  unfold emit_block
  rw [he]

/-- LZMA branch of emit_block for a failing encode: the raw block is kept. -/
lemma emit_block_lzma_fail (o : Oracle) (cap : Nat) (b : List Nat) (he : o.xenc b = none) :
    emit_block o Codec.lzma cap b = b := by
  unfold emit_block
  rw [he]

/-- With enough capacity for the raw block, the conditional of emit_block
keeps the raw input exactly when the encoder did not shrink it. -/
lemma emit_if_raw (e : List Nat) (cap : Nat) (b : List Nat) (hcap : b.length ≤ cap)
    (h : b.length ≤ e.length) :
    (if b.length ≤ min e.length cap then b else e.take (min e.length cap)) = b := by
  rw [if_pos (by omega)]

/-- With enough capacity for the raw block, the conditional of emit_block
emits the whole encoder output exactly when it shrank the input. -/
lemma emit_if_enc (e : List Nat) (cap : Nat) (b : List Nat) (hcap : b.length ≤ cap)
    (h : e.length < b.length) :
    (if b.length ≤ min e.length cap then b else e.take (min e.length cap)) = e := by
  rw [if_neg (by omega)]
  have hm : min e.length cap = e.length := by omega
  rw [hm, List.take_length]

/-- With enough capacity for the raw block, the emitted byte count is the
minimum of the encoded and the natural length. -/
lemma emit_if_len (e : List Nat) (cap : Nat) (b : List Nat) (hcap : b.length ≤ cap) :
    (if b.length ≤ min e.length cap then b else e.take (min e.length cap)).length =
      min e.length b.length := by
  by_cases h : b.length ≤ e.length
  · rw [emit_if_raw e cap b hcap h]
    omega
  · rw [emit_if_enc e cap b hcap (by omega)]
    omega

/-- Claim C2: in both the synchronous and the worker compression paths, a
zlib or LZMA block whose encoded length is at least its natural length is
stored as the raw input bytes, and the emitted byte count always equals the
minimum of the encoded length and the natural length. -/
theorem c2_fallback_min (o : Oracle) (bs : Nat) (b : List Nat) (hbs : 0 < bs)
    (hb : b.length ≤ bs) (hcb : b.length ≤ o.cb b.length) :
    (b.length ≤ (o.zenc b).length → compress_entry_block o Codec.zlib bs b = b ∧
      compress_entry_thread_block o Codec.zlib bs b = b) ∧
    (compress_entry_block o Codec.zlib bs b).length = min (o.zenc b).length b.length ∧
    (compress_entry_thread_block o Codec.zlib bs b).length = min (o.zenc b).length b.length ∧
    (∀ e, o.xenc b = some e →
      (b.length ≤ e.length → compress_entry_block o Codec.lzma bs b = b ∧
        compress_entry_thread_block o Codec.lzma bs b = b) ∧
      (compress_entry_block o Codec.lzma bs b).length = min e.length b.length ∧
      (compress_entry_thread_block o Codec.lzma bs b).length = min e.length b.length) := by
  have hb2 : b.length ≤ 2 * bs := by omega
  refine ⟨fun h => ⟨?_, ?_⟩, ?_, ?_, fun e he => ⟨fun h => ⟨?_, ?_⟩, ?_, ?_⟩⟩
  · rw [compress_entry_block, sync_cap, emit_block_zlib, emit_if_raw _ _ _ hcb h]
  · rw [compress_entry_thread_block, emit_block_zlib, emit_if_raw _ _ _ hb2 h]
  · rw [compress_entry_block, sync_cap, emit_block_zlib, emit_if_len _ _ _ hcb]
  · rw [compress_entry_thread_block, emit_block_zlib, emit_if_len _ _ _ hb2]
  · rw [compress_entry_block, sync_cap, emit_block_lzma o bs b e he, emit_if_raw _ _ _ hb h]
  · rw [compress_entry_thread_block, emit_block_lzma o (2 * bs) b e he, emit_if_raw _ _ _ hb2 h]
  · rw [compress_entry_block, sync_cap, emit_block_lzma o bs b e he, emit_if_len _ _ _ hb]
  · rw [compress_entry_thread_block, emit_block_lzma o (2 * bs) b e he, emit_if_len _ _ _ hb2]

/-- Claim C2, witness: concrete block with a non-shrinking zlib encoder. -/
theorem c2_fallback_min_witness :
    compress_entry_block oracle1 Codec.zlib 1024 [1, 2, 3] = [1, 2, 3] :=
  ((c2_fallback_min oracle1 1024 [1, 2, 3] (by decide) (by decide) (by decide)).1 (by decide)).1

/-- Unfolding of chunksAux at zero fuel. -/
lemma chunksAux_zero (bs : Nat) (l : List Nat) : chunksAux bs 0 l = [] := rfl

/-- Unfolding of chunksAux at positive fuel on the empty list. -/
lemma chunksAux_succ_nil (bs f : Nat) : chunksAux bs (f + 1) [] = [] := by
  rw [show chunksAux bs (f + 1) [] =
      if ([] : List Nat) = [] then []
      else ([] : List Nat).take bs :: chunksAux bs f (([] : List Nat).drop bs) from rfl]
  rw [if_pos rfl]

/-- Unfolding of chunksAux at positive fuel on a nonempty list. -/
lemma chunksAux_succ (bs f : Nat) (l : List Nat) (hl : l ≠ []) :
    chunksAux bs (f + 1) l = l.take bs :: chunksAux bs f (l.drop bs) := by
  rw [show chunksAux bs (f + 1) l =
      if l = [] then [] else l.take bs :: chunksAux bs f (l.drop bs) from rfl]
  rw [if_neg hl]

/-- Fuel irrelevance for the block decomposition: any fuel at least the list
length produces the same chunks. -/
lemma chunksAux_eq_of_le (bs : Nat) (hbs : 0 < bs) :
    ∀ f g l, l.length ≤ f → l.length ≤ g → chunksAux bs f l = chunksAux bs g l := by
  intro f
  induction f with
  | zero =>
    intro g l hf _
    have h : l = [] := List.eq_nil_of_length_eq_zero (Nat.le_zero.mp hf)
    subst h
    cases g <;> rfl
  | succ f ih =>
    intro g l hf hg
    cases l with
    | nil =>
      cases g with
      | zero => rfl
      | succ g => rw [chunksAux_succ_nil, chunksAux_succ_nil]
    | cons a t =>
      cases g with
      | zero => simp at hg
      | succ g =>
        simp only [List.length_cons] at hf hg
        rw [chunksAux_succ bs f (a :: t) (by simp), chunksAux_succ bs g (a :: t) (by simp)]
        congr 1
        exact ih g ((a :: t).drop bs)
          (by simp only [List.length_drop, List.length_cons]; omega)
          (by simp only [List.length_drop, List.length_cons]; omega)

/-- Unfolding of the block decomposition of a nonempty entry. -/
lemma chunks_cons_unfold (bs : Nat) (hbs : 0 < bs) (l : List Nat) (hl : l ≠ []) :
    chunks bs l = l.take bs :: chunks bs (l.drop bs) := by
  cases l with
  | nil => exact absurd rfl hl
  | cons a t =>
    show chunksAux bs (t.length + 1) (a :: t) = (a :: t).take bs :: chunks bs ((a :: t).drop bs)
    rw [chunksAux_succ bs t.length (a :: t) (by simp)]
    congr 1
    exact chunksAux_eq_of_le bs hbs t.length ((a :: t).drop bs).length ((a :: t).drop bs)
      (by simp only [List.length_drop, List.length_cons]; omega) le_rfl

/-- Concatenating the chunks of an entry restores the entry. -/
lemma chunksAux_flatten (bs : Nat) (hbs : 0 < bs) :
    ∀ fuel l, l.length ≤ fuel → (chunksAux bs fuel l).flatten = l := by
  intro fuel
  induction fuel with
  | zero =>
    intro l h
    have h2 : l = [] := List.eq_nil_of_length_eq_zero (Nat.le_zero.mp h)
    subst h2
    rfl
  | succ f ih =>
    intro l h
    cases l with
    | nil => rw [chunksAux_succ_nil]; rfl
    | cons a t =>
      simp only [List.length_cons] at h
      rw [chunksAux_succ bs f (a :: t) (by simp)]
      rw [List.flatten_cons, ih ((a :: t).drop bs)
        (by simp only [List.length_drop, List.length_cons]; omega)]
      exact List.take_append_drop bs (a :: t)

/-- Entry-level restatement of chunksAux_flatten. -/
lemma chunks_flatten (bs : Nat) (hbs : 0 < bs) (l : List Nat) : (chunks bs l).flatten = l :=
  chunksAux_flatten bs hbs l.length l le_rfl

/-- Every chunk of an entry is nonempty and no longer than the block size. -/
lemma chunksAux_mem (bs : Nat) (hbs : 0 < bs) :
    ∀ fuel l b, l.length ≤ fuel → b ∈ chunksAux bs fuel l → b ≠ [] ∧ b.length ≤ bs := by
  intro fuel
  induction fuel with
  | zero =>
    intro l b _ hb
    rw [chunksAux_zero] at hb
    cases hb
  | succ f ih =>
    intro l b hl hb
    cases l with
    | nil =>
      rw [chunksAux_succ_nil] at hb
      cases hb
    | cons a t =>
      simp only [List.length_cons] at hl
      rw [chunksAux_succ bs f (a :: t) (by simp)] at hb
      rcases List.mem_cons.mp hb with heq | hmem
      · subst heq
        constructor
        · have hpos : 0 < ((a :: t).take bs).length := by
            rw [List.length_take, List.length_cons]
            omega
          exact fun hnil => by rw [hnil] at hpos; exact absurd hpos (by decide)
        · rw [List.length_take]
          omega
      · exact ih ((a :: t).drop bs) b
          (by simp only [List.length_drop, List.length_cons]; omega) hmem

/-- Entry-level restatement of chunksAux_mem. -/
lemma chunks_mem (bs : Nat) (hbs : 0 < bs) (l b : List Nat) (h : b ∈ chunks bs l) :
    b ≠ [] ∧ b.length ≤ bs :=
  chunksAux_mem bs hbs l.length l b le_rfl h

/-- Entries compressed with block-wise equal emit functions produce the same
state and metadata. -/
lemma compress_entry_model_congr (bs : Nat) (hbs : 0 < bs)
    (emit1 emit2 : List Nat → List Nat)
    (h : ∀ b : List Nat, b ≠ [] → b.length ≤ bs → emit1 b = emit2 b)
    (content : List Nat) (st : PakState) :
    compress_entry_model emit1 bs content st = compress_entry_model emit2 bs content st := by
  have hm : (chunks bs content).map emit1 = (chunks bs content).map emit2 :=
    List.map_congr_left (fun b hb =>
      h b (chunks_mem bs hbs content b hb).1 (chunks_mem bs hbs content b hb).2)
  simp only [compress_entry_model, hm]

/-- Entry lists compressed with block-wise equal emit functions produce the
same state and metadata. -/
lemma create_entries_congr (bs : Nat) (hbs : 0 < bs)
    (emit1 emit2 : List Nat → List Nat)
    (h : ∀ b : List Nat, b ≠ [] → b.length ≤ bs → emit1 b = emit2 b) :
    ∀ (cs : List (List Nat)) (st : PakState),
      create_entries emit1 bs cs st = create_entries emit2 bs cs st := by
  intro cs
  induction cs with
  | nil => intro st; rfl
  | cons c rest ih =>
    intro st
    simp only [create_entries, compress_entry_model_congr bs hbs emit1 emit2 h c st, ih]

/-- One block compresses identically through the synchronous path and the
worker path, given the documented compressBound contract and a block size
large enough that both scratch capacities dominate the encoder output. -/
lemma sync_thread_block_eq (o : Oracle) (c : Codec) (bs : Nat) (b : List Nat)
    (hbs : 0 < bs) (hb : b.length ≤ bs)
    (h1 : (o.zenc b).length ≤ o.cb b.length) (h2 : o.cb b.length ≤ 2 * bs) :
    compress_entry_block o c bs b = compress_entry_thread_block o c bs b := by
  cases c with
  | store => rfl
  | zlib =>
    rw [compress_entry_block, sync_cap, compress_entry_thread_block, emit_block_zlib,
      emit_block_zlib]
    have h3 : min (o.zenc b).length (o.cb b.length) = min (o.zenc b).length (2 * bs) := by omega
    rw [h3]
  | lzma =>
    rw [compress_entry_block, sync_cap, compress_entry_thread_block]
    cases hxe : o.xenc b with
    | none => rw [emit_block_lzma_fail o bs b hxe, emit_block_lzma_fail o (2 * bs) b hxe]
    | some e =>
      rw [emit_block_lzma o bs b e hxe, emit_block_lzma o (2 * bs) b e hxe]
      by_cases hbe : b.length ≤ e.length
      · rw [if_pos (by omega), if_pos (by omega)]
      · rw [emit_if_enc e bs b hb (by omega), emit_if_enc e (2 * bs) b (by omega) (by omega)]

/-- Claim C9: creating the archive with the worker pool (whose ticket
protocol commits block results in submission order) and with the pool
disabled yields identical archives for every codec: the data stream, the
block table, the offsets and block counts all coincide, under the
compressBound contract of zlib and a block size that keeps both scratch
capacities sufficient. -/
theorem c9_thread_pool_determinism (o : Oracle) (bs : Nat) (c : Codec)
    (absflag trimflag : Bool) (names contents : List (List Nat)) (hbs : 0 < bs)
    (hzcb : ∀ b : List Nat, (o.zenc b).length ≤ o.cb b.length)
    (hcb2 : ∀ n, n ≤ bs → o.cb n ≤ 2 * bs) :
    create_archive_model (compress_entry_block o c bs) bs absflag trimflag names contents =
      create_archive_model (compress_entry_thread_block o c bs) bs absflag trimflag
        names contents := by
  have hblk : ∀ b : List Nat, b ≠ [] → b.length ≤ bs →
      compress_entry_block o c bs b = compress_entry_thread_block o c bs b :=
    fun b _ hb => sync_thread_block_eq o c bs b hbs hb (hzcb b) (by
      have := hcb2 b.length hb
      omega)
  simp only [create_archive_model,
    compress_entry_model_congr bs hbs _ _ hblk,
    create_entries_congr bs hbs _ _ hblk]

/-- Claim C9, witness: both paths produce the same archive for a concrete
input under the concrete oracle. -/
theorem c9_thread_pool_determinism_witness :
    create_archive_model (compress_entry_block oracle1 Codec.zlib 1024) 1024 false false
        [[97]] [[1, 2, 3]] =
      create_archive_model (compress_entry_thread_block oracle1 Codec.zlib 1024) 1024 false false
        [[97]] [[1, 2, 3]] :=
  c9_thread_pool_determinism oracle1 1024 Codec.zlib false false [[97]] [[1, 2, 3]]
    (by decide)
    (fun b => by simp [oracle1])
    (fun n h => by simp [oracle1]; omega)

/-- Case analysis of the block emission with enough scratch capacity for the
raw input: the payload is either the raw block or a complete strictly
shrinking encoder output. -/
lemma emit_block_cases (o : Oracle) (c : Codec) (cap : Nat) (b : List Nat)
    (hcap : c ≠ Codec.store → b.length ≤ cap) :
    emit_block o c cap b = b ∨
    (c = Codec.zlib ∧ emit_block o c cap b = o.zenc b ∧ (o.zenc b).length < b.length) ∨
    (∃ e, c = Codec.lzma ∧ o.xenc b = some e ∧ emit_block o c cap b = e ∧
      e.length < b.length) := by
  cases c with
  | store => exact Or.inl rfl
  | zlib =>
    have hc : b.length ≤ cap := hcap (by simp)
    rw [emit_block_zlib]
    by_cases h : b.length ≤ (o.zenc b).length
    · rw [emit_if_raw _ _ _ hc h]
      exact Or.inl rfl
    · rw [emit_if_enc _ _ _ hc (by omega)]
      exact Or.inr (Or.inl ⟨rfl, rfl, by omega⟩)
  | lzma =>
    have hc : b.length ≤ cap := hcap (by simp)
    cases hxe : o.xenc b with
    | none =>
      rw [emit_block_lzma_fail o cap b hxe]
      exact Or.inl rfl
    | some e =>
      rw [emit_block_lzma o cap b e hxe]
      by_cases h : b.length ≤ e.length
      · rw [emit_if_raw _ _ _ hc h]
        exact Or.inl rfl
      · rw [emit_if_enc _ _ _ hc (by omega)]
        exact Or.inr (Or.inr ⟨e, rfl, rfl, rfl, by omega⟩)

/-- A payload detected as zlib has more than two bytes. -/
lemma detect_zlib_length (p : List Nat) (h : detect_block_codec p = Detected.zlib) :
    2 < p.length := by
  unfold detect_block_codec at h
  by_cases h1 : 2 < p.length ∧ p.getD 0 0 = 0x78 ∧
      (p.getD 1 0 = 0x01 ∨ p.getD 1 0 = 0x5E ∨ p.getD 1 0 = 0x9C ∨ p.getD 1 0 = 0xDA)
  · exact h1.1
  · rw [if_neg h1] at h
    by_cases h2 : 6 < p.length ∧ p.take 6 = [0xFD, 0x37, 0x7A, 0x58, 0x5A, 0x00]
    · rw [if_pos h2] at h
      exact absurd h (by decide)
    · rw [if_neg h2] at h
      exact absurd h (by decide)

/-- A payload detected as XZ has more than six bytes. -/
lemma detect_lzma2_length (p : List Nat) (h : detect_block_codec p = Detected.lzma2) :
    6 < p.length := by
  unfold detect_block_codec at h
  by_cases h1 : 2 < p.length ∧ p.getD 0 0 = 0x78 ∧
      (p.getD 1 0 = 0x01 ∨ p.getD 1 0 = 0x5E ∨ p.getD 1 0 = 0x9C ∨ p.getD 1 0 = 0xDA)
  · rw [if_pos h1] at h
    exact absurd h (by decide)
  · rw [if_neg h1] at h
    by_cases h2 : 6 < p.length ∧ p.take 6 = [0xFD, 0x37, 0x7A, 0x58, 0x5A, 0x00]
    · exact h2.1
    · rw [if_neg h2] at h
      exact absurd h (by decide)

/-- Every emitted payload of a nonempty block is nonempty and no longer than
the block, given that shrinking encoder outputs carry their signature. -/
lemma emit_block_len (o : Oracle) (hs : OracleSound o) (c : Codec) (cap : Nat) (b : List Nat)
    (hb : b ≠ []) (hcap : c ≠ Codec.store → b.length ≤ cap) :
    0 < (emit_block o c cap b).length ∧ (emit_block o c cap b).length ≤ b.length := by
  rcases emit_block_cases o c cap b hcap with h | ⟨_, h, hlt⟩ | ⟨e, _, hxe, h, hlt⟩
  · rw [h]
    exact ⟨List.length_pos.mpr hb, le_rfl⟩
  · rw [h]
    have h3 := detect_zlib_length _ (hs.zlib_sig b hlt)
    omega
  · rw [h]
    have h6 := detect_lzma2_length _ (hs.xz_sig b e hxe hlt)
    omega

/-- Verbatim branch of read_block. -/
lemma read_block_raw (o : Oracle) (p : List Nat) (n : Nat)
    (h : detect_block_codec p = Detected.raw) : read_block o p n = some p := by
  unfold read_block
  rw [h]

/-- Reading back an emitted payload with the natural length as capacity
recovers the original block, for sound codecs and signature-free raw
blocks. -/
lemma read_emit_block (o : Oracle) (hs : OracleSound o) (c : Codec) (cap : Nat) (b : List Nat)
    (hb : b ≠ []) (hcap : c ≠ Codec.store → b.length ≤ cap)
    (hraw : emit_block o c cap b = b → detect_block_codec b = Detected.raw) :
    read_block o (emit_block o c cap b) b.length = some b := by
  rcases emit_block_cases o c cap b hcap with h | ⟨_, h, hlt⟩ | ⟨e, _, hxe, h, hlt⟩
  · rw [h]
    exact read_block_raw o b b.length (hraw h)
  · rw [h]
    unfold read_block
    rw [hs.zlib_sig b hlt, hs.zlib_inv b]
    simp
  · rw [h]
    unfold read_block
    rw [hs.xz_sig b e hxe hlt, hs.xz_inv b e hxe]
    simp

/-- Indexing with a default into the left part of an append. -/
lemma getD_append_left_of_lt {α : Type} (l r : List α) (i : Nat) (d : α) (h : i < l.length) :
    (l ++ r).getD i d = l.getD i d := by
  rw [List.getD_eq_getElem?_getD, List.getD_eq_getElem?_getD, List.getElem?_append_left h]

/-- Indexing with a default into the right part of an append. -/
lemma getD_append_right_add {α : Type} (l r : List α) (k : Nat) (d : α) :
    (l ++ r).getD (l.length + k) d = r.getD k d := by
  rw [List.getD_eq_getElem?_getD, List.getD_eq_getElem?_getD,
    List.getElem?_append_right (Nat.le_add_right _ _)]
  simp

/-- Indexing into the lengths of a list of lists. -/
lemma getD_map_length (X : List (List Nat)) (k : Nat) (hk : k < X.length) :
    (X.map List.length).getD k 0 = (X.getD k []).length := by
  rw [List.getD_eq_getElem?_getD, List.getD_eq_getElem?_getD, List.getElem?_map,
    List.getElem?_eq_getElem hk]
  rfl

/-- Membership of an in-range default read. -/
lemma getD_mem_of_lt {α : Type} (l : List α) (i : Nat) (d : α) (h : i < l.length) :
    l.getD i d ∈ l := by
  rw [List.getD_eq_getElem?_getD, List.getElem?_eq_getElem h]
  exact List.getElem_mem h

/-- Core round trip of one entry: if every chunk payload reads back to its
chunk, the payloads sit contiguously in the data region at the given
position, and the resolved slots report exactly the payload lengths, then
the read loop reproduces the entry content. -/
lemma decompress_loop_roundtrip (o : Oracle) (bs : Nat) (hbs : 0 < bs) (bt : Nat → Nat)
    (data : List Nat) (emitf : List Nat → List Nat) :
    ∀ (fuel : Nat) (content : List Nat) (idx pos : Nat) (tail : List Nat),
      content.length ≤ fuel →
      (∀ b ∈ chunks bs content, read_block o (emitf b) b.length = some b) →
      (∀ b ∈ chunks bs content, 0 < (emitf b).length) →
      data.drop pos = ((chunks bs content).map emitf).flatten ++ tail →
      (∀ k, k < (chunks bs content).length →
        resolve_block_size bs (bt (idx + k)) =
          (((chunks bs content).map emitf).getD k []).length) →
      decompress_entry_loop o bs bt data fuel idx pos content.length = some content := by
  intro fuel
  induction fuel with
  | zero =>
    intro content idx pos tail hlen _ _ _ _
    have hc : content = [] := List.eq_nil_of_length_eq_zero (Nat.le_zero.mp hlen)
    subst hc
    rfl
  | succ f ih =>
    intro content idx pos tail hlen hread hpos hdata hbt
    by_cases hc : content = []
    · subst hc
      rfl
    · have hch : chunks bs content = content.take bs :: chunks bs (content.drop bs) :=
        chunks_cons_unfold bs hbs content hc
      have hbmem : content.take bs ∈ chunks bs content := by
        rw [hch]
        exact List.mem_cons_self _ _
      have hblen : (content.take bs).length = min bs content.length := List.length_take bs content
      have hcpos : 0 < content.length := List.length_pos.mpr hc
      have hsz : resolve_block_size bs (bt idx) = (emitf (content.take bs)).length := by
        have h0 := hbt 0 (by rw [hch]; simp)
        rw [hch] at h0
        simpa using h0
      rw [hch] at hdata
      simp only [List.map_cons, List.flatten_cons, List.append_assoc] at hdata
      have hplen : 0 < (emitf (content.take bs)).length := hpos _ hbmem
      have hdl : (data.drop pos).length = data.length - pos := List.length_drop pos data
      have hlen2 : data.length - pos = (emitf (content.take bs)).length +
          (((chunks bs (content.drop bs)).map emitf).flatten ++ tail).length := by
        rw [← hdl, hdata]
        simp [List.length_append]
      have hle : pos + (emitf (content.take bs)).length ≤ data.length := by
        by_cases hple : pos ≤ data.length
        · omega
        · exfalso
          have : data.length - pos = 0 := by omega
          omega
      simp only [decompress_entry_loop]
      rw [if_neg (by omega), hsz, if_pos hle]
      have hslice : (data.drop pos).take (emitf (content.take bs)).length =
          emitf (content.take bs) := by
        rw [hdata]
        exact List.take_left _ _
      rw [hslice]
      have hn : min bs content.length = (content.take bs).length := hblen.symm
      rw [hn, hread _ hbmem]
      have hrec : decompress_entry_loop o bs bt data f (idx + 1)
          (pos + (emitf (content.take bs)).length)
          (content.length - (content.take bs).length) = some (content.drop bs) := by
        have hrl : (content.drop bs).length = content.length - (content.take bs).length := by
          rw [List.length_drop]
          omega
        rw [← hrl]
        apply ih (content.drop bs) (idx + 1) (pos + (emitf (content.take bs)).length) tail
        · have := List.length_drop bs content
          omega
        · intro b hb
          exact hread b (by rw [hch]; exact List.mem_cons_of_mem _ hb)
        · intro b hb
          exact hpos b (by rw [hch]; exact List.mem_cons_of_mem _ hb)
        · rw [show data.drop (pos + (emitf (content.take bs)).length) =
              (data.drop pos).drop (emitf (content.take bs)).length from
              (List.drop_drop _ _ _).symm, hdata, List.drop_left]
        · intro k hk
          have h1 := hbt (k + 1) (by rw [hch]; simp; omega)
          rw [hch] at h1
          simp only [List.map_cons, List.getD_cons_succ] at h1
          rw [show idx + 1 + k = idx + (k + 1) from by omega]
          exact h1
      rw [hrec]
      exact congrArg some (List.take_append_drop bs content)

/-- Decompression of one entry reproduces the content under the premises of
decompress_loop_roundtrip. -/
lemma decompress_entry_model_roundtrip (o : Oracle) (bs : Nat) (hbs : 0 < bs) (bt : Nat → Nat)
    (data : List Nat) (emitf : List Nat → List Nat) (content : List Nat) (idx pos : Nat)
    (tail : List Nat)
    (hread : ∀ b ∈ chunks bs content, read_block o (emitf b) b.length = some b)
    (hpos : ∀ b ∈ chunks bs content, 0 < (emitf b).length)
    (hdata : data.drop pos = ((chunks bs content).map emitf).flatten ++ tail)
    (hbt : ∀ k, k < (chunks bs content).length →
      resolve_block_size bs (bt (idx + k)) =
        (((chunks bs content).map emitf).getD k []).length) :
    decompress_entry_model o bs bt data idx pos content.length = some content :=
  decompress_loop_roundtrip o bs hbs bt data emitf content.length content idx pos tail
    le_rfl hread hpos hdata hbt

/-- Data stream and slot list produced by a run of create_entries: each entry
appends the concatenation of its block payloads and the list of their
lengths. -/
lemma create_entries_out_slots (emitf : List Nat → List Nat) (bs : Nat) :
    ∀ (cs : List (List Nat)) (st : PakState),
      (create_entries emitf bs cs st).1.out =
        st.out ++ (cs.map (fun c => ((chunks bs c).map emitf).flatten)).flatten ∧
      (create_entries emitf bs cs st).1.slots =
        st.slots ++ (cs.map (fun c => (chunks bs c).map (fun b => (emitf b).length))).flatten := by
  intro cs
  induction cs with
  | nil =>
    intro st
    constructor <;> simp [create_entries]
  | cons c rest ih =>
    intro st
    have hstep : (create_entries emitf bs (c :: rest) st).1 =
        (create_entries emitf bs rest (compress_entry_model emitf bs c st).1).1 := rfl
    constructor
    · rw [hstep, (ih _).1]
      simp [compress_entry_model, List.map_map, Function.comp]
    · rw [hstep, (ih _).2]
      simp [compress_entry_model, List.map_map, Function.comp]

/-- Extraction of every entry created by create_entries reproduces the
content list, provided the payloads read back, the data region holds the
payload stream at the running offset, and the slot table resolves to the
payload lengths at the running block index. -/
lemma extract_create_entries (o : Oracle) (bs : Nat) (hbs : 0 < bs) (bt : Nat → Nat)
    (data : List Nat) (emitf : List Nat → List Nat) :
    ∀ (cs : List (List Nat)) (st : PakState) (tailD : List Nat),
      (∀ c ∈ cs, ∀ b ∈ chunks bs c, read_block o (emitf b) b.length = some b) →
      (∀ c ∈ cs, ∀ b ∈ chunks bs c, 0 < (emitf b).length) →
      data.drop st.total_size =
        (cs.map (fun c => ((chunks bs c).map emitf).flatten)).flatten ++ tailD →
      (∀ k, k < ((cs.map (fun c =>
          (chunks bs c).map (fun b => (emitf b).length))).flatten).length →
        resolve_block_size bs (bt (st.blocktable_idx + k)) =
          ((cs.map (fun c => (chunks bs c).map (fun b => (emitf b).length))).flatten).getD k 0) →
      extract_all o bs bt data (create_entries emitf bs cs st).2 = some cs := by
  intro cs
  induction cs with
  | nil =>
    intro st tailD _ _ _ _
    rfl
  | cons c rest ih =>
    intro st tailD hread hpos hdata hslots
    have hmeta : (create_entries emitf bs (c :: rest) st).2 =
        (compress_entry_model emitf bs c st).2 ::
          (create_entries emitf bs rest (compress_entry_model emitf bs c st).1).2 := rfl
    simp only [List.map_cons, List.flatten_cons] at hdata hslots
    have hc1 : extract_entry o bs bt data (compress_entry_model emitf bs c st).2 = some c := by
      show decompress_entry_model o bs bt data st.blocktable_idx st.total_size c.length = some c
      apply decompress_entry_model_roundtrip o bs hbs bt data emitf c st.blocktable_idx
        st.total_size
        ((rest.map (fun c => ((chunks bs c).map emitf).flatten)).flatten ++ tailD)
        (hread c (List.mem_cons_self _ _)) (hpos c (List.mem_cons_self _ _))
      · rw [hdata, List.append_assoc]
      · intro k hk
        have hkb : k < ((chunks bs c).map (fun b => (emitf b).length)).length := by
          rw [List.length_map]
          exact hk
        have h1 := hslots k (by
          rw [List.length_append]
          omega)
        rw [getD_append_left_of_lt _ _ k 0 hkb] at h1
        rw [h1]
        have hmm : (chunks bs c).map (fun b => (emitf b).length) =
            ((chunks bs c).map emitf).map List.length := by
          rw [List.map_map]
          rfl
        rw [hmm, getD_map_length _ k (by rw [List.length_map]; exact hk)]
    have hc2 : extract_all o bs bt data
        (create_entries emitf bs rest (compress_entry_model emitf bs c st).1).2 = some rest := by
      apply ih (compress_entry_model emitf bs c st).1 tailD
        (fun c2 h2 => hread c2 (List.mem_cons_of_mem _ h2))
        (fun c2 h2 => hpos c2 (List.mem_cons_of_mem _ h2))
      · show data.drop (st.total_size + (((chunks bs c).map emitf).map List.length).sum) = _
        rw [show st.total_size + (((chunks bs c).map emitf).map List.length).sum =
            st.total_size + ((chunks bs c).map emitf).flatten.length from by
          rw [List.length_flatten]]
        rw [show data.drop (st.total_size + ((chunks bs c).map emitf).flatten.length) =
            (data.drop st.total_size).drop ((chunks bs c).map emitf).flatten.length from
            (List.drop_drop _ _ _).symm]
        rw [hdata, List.append_assoc, List.drop_left]
      · intro k hk
        show resolve_block_size bs
            (bt (st.blocktable_idx + ((chunks bs c).map emitf).length + k)) = _
        have hlen1 : ((chunks bs c).map (fun b => (emitf b).length)).length =
            ((chunks bs c).map emitf).length := by
          rw [List.length_map, List.length_map]
        have h1 := hslots (((chunks bs c).map (fun b => (emitf b).length)).length + k) (by
          rw [List.length_append]
          omega)
        rw [getD_append_right_add] at h1
        rw [show st.blocktable_idx + ((chunks bs c).map emitf).length + k =
            st.blocktable_idx + (((chunks bs c).map (fun b => (emitf b).length)).length + k) from by
          rw [hlen1]
          omega]
        exact h1
    rw [hmeta]
    show ((compress_entry_model emitf bs c st).2 ::
      (create_entries emitf bs rest (compress_entry_model emitf bs c st).1).2).mapM
        (extract_entry o bs bt data) = some (c :: rest)
    rw [List.mapM_cons]
    simp only [hc1]
    show (extract_all o bs bt data
      (create_entries emitf bs rest (compress_entry_model emitf bs c st).1).2).bind _ = _
    rw [hc2]
    rfl

/-- Taking up to the separator runs through a separator-free name. -/
lemma takeWhile_append_all (n l : List Nat) (h : ∀ a ∈ n, a ≠ 10) :
    (n ++ l).takeWhile (fun x => x ≠ 10) = n ++ l.takeWhile (fun x => x ≠ 10) := by
  induction n with
  | nil => rfl
  | cons a t ih =>
    have ha : a ≠ 10 := h a (List.mem_cons_self _ _)
    rw [List.cons_append, List.takeWhile_cons_of_pos (by simp [ha]),
      ih (fun a2 h2 => h a2 (List.mem_cons_of_mem _ h2)), List.cons_append]

/-- Dropping up to the separator runs through a separator-free name. -/
lemma dropWhile_append_all (n l : List Nat) (h : ∀ a ∈ n, a ≠ 10) :
    (n ++ l).dropWhile (fun x => x ≠ 10) = l.dropWhile (fun x => x ≠ 10) := by
  induction n with
  | nil => rfl
  | cons a t ih =>
    have ha : a ≠ 10 := h a (List.mem_cons_self _ _)
    rw [List.cons_append, List.dropWhile_cons_of_pos (by simp [ha]),
      ih (fun a2 h2 => h a2 (List.mem_cons_of_mem _ h2))]

/-- Skipping separators does not touch a list that starts inside a
separator-free nonempty name. -/
lemma dropWhile_sep_of_not_mem (n l : List Nat) (h : 10 ∉ n) (hn : n ≠ []) :
    (n ++ l).dropWhile (fun x => x = 10) = n ++ l := by
  cases n with
  | nil => exact absurd rfl hn
  | cons a t =>
    have ha : a ≠ 10 := fun he => h (List.mem_cons.mpr (Or.inl he.symm))
    rw [List.cons_append, List.dropWhile_cons_of_neg (by simp [ha])]

/-- One leading separator is skipped by the token loop at no fuel cost. -/
lemma split_tokens_loop_sep (fuel : Nat) (b : List Nat) :
    split_tokens_loop fuel (10 :: b) = split_tokens_loop fuel b := by
  cases fuel with
  | zero => rfl
  | succ f =>
    simp [split_tokens_loop, List.dropWhile_cons]

/-- The token loop of read_filenames inverts build_manifest on nonempty
separator-free names, for any fuel at least the manifest length. -/
lemma split_tokens_loop_manifest :
    ∀ (names : List (List Nat)), (∀ nm ∈ names, nm ≠ [] ∧ 10 ∉ nm) →
    ∀ fuel, (build_manifest names).length ≤ fuel →
      split_tokens_loop fuel (build_manifest names) = names := by
  intro names
  induction names with
  | nil =>
    intro _ fuel _
    cases fuel with
    | zero => rfl
    | succ f => rfl
  | cons n rest ih =>
    intro h fuel hfuel
    have hn : n ≠ [] := (h n (List.mem_cons_self _ _)).1
    have hn10 : 10 ∉ n := (h n (List.mem_cons_self _ _)).2
    have hall : ∀ a ∈ n, a ≠ 10 := fun a ha he => hn10 (he ▸ ha)
    have hnpos : 0 < n.length := List.length_pos.mpr hn
    cases rest with
    | nil =>
      have hb : build_manifest [n] = n := rfl
      rw [hb] at hfuel ⊢
      cases fuel with
      | zero => exact absurd (List.eq_nil_of_length_eq_zero (Nat.le_zero.mp hfuel)) hn
      | succ f =>
        simp only [split_tokens_loop]
        have hdw : n.dropWhile (fun x => x = 10) = n := by
          have h2 := dropWhile_sep_of_not_mem n [] hn10 hn
          simpa using h2
        rw [hdw, if_neg hn]
        have htw : n.takeWhile (fun x => x ≠ 10) = n := by
          have h2 := takeWhile_append_all n [] hall
          simpa using h2
        have hdw2 : n.dropWhile (fun x => x ≠ 10) = [] := by
          have h2 := dropWhile_append_all n [] hall
          simpa using h2
        rw [htw, hdw2, show split_tokens_loop f [] = [] from by cases f <;> rfl]
    | cons m t =>
      have hb : build_manifest (n :: m :: t) = n ++ 10 :: build_manifest (m :: t) := rfl
      rw [hb] at hfuel ⊢
      rw [List.length_append, List.length_cons] at hfuel
      cases fuel with
      | zero => omega
      | succ f =>
        simp only [split_tokens_loop]
        rw [dropWhile_sep_of_not_mem n _ hn10 hn]
        rw [if_neg (by
          intro hcon
          rcases List.append_eq_nil.mp hcon with ⟨_, hcon2⟩
          cases hcon2)]
        rw [takeWhile_append_all n _ hall,
          show (10 :: build_manifest (m :: t)).takeWhile (fun x => x ≠ 10) = [] from by
            simp [List.takeWhile_cons],
          List.append_nil]
        rw [dropWhile_append_all n _ hall,
          show (10 :: build_manifest (m :: t)).dropWhile (fun x => x ≠ 10) =
            10 :: build_manifest (m :: t) from by simp [List.dropWhile_cons]]
        rw [split_tokens_loop_sep]
        rw [ih (fun nm hm => h nm (List.mem_cons_of_mem _ hm)) f (by omega)]

/-- Splitting the manifest recovers exactly the stored names when every
stored name is nonempty and separator-free. -/
lemma split_tokens_manifest (names : List (List Nat))
    (h : ∀ nm ∈ names, nm ≠ [] ∧ 10 ∉ nm) :
    split_tokens (build_manifest names) = names :=
  split_tokens_loop_manifest names h (build_manifest names).length le_rfl

/-- Adversarial but inverse-correct zlib model: the encoder prepends the
0x78 0xDA signature and the decoder strips two leading bytes from anything
that starts with that signature.  It decodes every encoder output back to
its input, yet a stored file that happens to begin with 0x78 0xDA is
mangled on extraction. -/
def oracle_bad : Oracle :=
  { zenc := fun b => [0x78, 0xDA] ++ b
    cb := fun n => n + 2
    xenc := fun _ => none
    zdec := fun p => if 2 ≤ p.length ∧ p.take 2 = [0x78, 0xDA] then some (p.drop 2) else none
    xdec := fun _ => none }

/-- Unfolding of the zlib encoder of oracle_bad. -/
lemma oracle_bad_zenc (b : List Nat) : oracle_bad.zenc b = [0x78, 0xDA] ++ b := rfl

/-- Unfolding of the zlib decoder of oracle_bad. -/
lemma oracle_bad_zdec (p : List Nat) : oracle_bad.zdec p =
    if 2 ≤ p.length ∧ p.take 2 = [0x78, 0xDA] then some (p.drop 2) else none := rfl

/-- Unfolding of the LZMA encoder of oracle_bad. -/
lemma oracle_bad_xenc (b : List Nat) : oracle_bad.xenc b = none := rfl

/-- Claim C1 counterexample: even with codec libraries that perfectly invert
their own encodings, create-then-extract is not the identity for every
input: a stored file beginning with the zlib signature bytes 0x78 0xDA is
inflated on read instead of being copied, so its extracted bytes differ. -/
theorem c1_roundtrip_counterexample :
    ¬ (∀ o : Oracle, OracleInverses o →
        ∀ (c : Codec) (bs : Nat) (absflag trimflag : Bool) (names contents : List (List Nat)),
          (bs = 1024 ∨ bs = 65536 ∨ bs = 131072) →
          (∀ nm ∈ names.map (normalize_name absflag trimflag), nm ≠ [] ∧ 10 ∉ nm) →
          round_trip_ok o c bs absflag trimflag names contents) := by
  intro h
  have hinv : OracleInverses oracle_bad := by
    constructor
    · intro b
      rw [oracle_bad_zenc, oracle_bad_zdec]
      rw [if_pos (by constructor <;> simp)]
      simp
    · intro b e hbe
      rw [oracle_bad_xenc] at hbe
      cases hbe
  have h2 := h oracle_bad hinv Codec.store 1024 false false [[97]] [[0x78, 0xDA, 5]]
    (Or.inl rfl) (by decide)
  rcases h2 with ⟨h3, _⟩
  exact absurd h3 (by decide)

/-- Unfolding of the zlib encoder of oracle1. -/
lemma oracle1_zenc (b : List Nat) : oracle1.zenc b = [0x78, 0x9C] ++ b ++ [0, 0, 0, 0] := rfl

/-- Unfolding of the zlib decoder of oracle1. -/
lemma oracle1_zdec (p : List Nat) : oracle1.zdec p =
    if 6 ≤ p.length ∧ p.take 2 = [0x78, 0x9C] then
      some ((p.drop 2).take ((p.drop 2).length - 4))
    else none := rfl

/-- Unfolding of the LZMA encoder of oracle1. -/
lemma oracle1_xenc (b : List Nat) : oracle1.xenc b =
    some ([0xFD, 0x37, 0x7A, 0x58, 0x5A, 0x00] ++ b ++ [0, 0, 0, 0, 0, 0]) := rfl

/-- Unfolding of the LZMA decoder of oracle1. -/
lemma oracle1_xdec (p : List Nat) : oracle1.xdec p =
    if 12 ≤ p.length ∧ p.take 6 = [0xFD, 0x37, 0x7A, 0x58, 0x5A, 0x00] then
      some ((p.drop 6).take ((p.drop 6).length - 6))
    else none := rfl

/-- Unfolding of the compressBound model of oracle1. -/
lemma oracle1_cb (n : Nat) : oracle1.cb n = n + 13 := rfl

/-- Soundness of the concrete witness oracle. -/
lemma oracle1_sound : OracleSound oracle1 := by
  constructor
  · intro b
    rw [oracle1_zenc, oracle1_zdec]
    rw [if_pos ⟨by rw [List.length_append, List.length_append]; simp, by simp⟩]
    have hdrop : ([0x78, 0x9C] ++ b ++ [0, 0, 0, 0]).drop 2 = b ++ [0, 0, 0, 0] := by
      simp
    rw [hdrop]
    congr 1
    rw [List.length_append, show b.length + ([0, 0, 0, 0] : List Nat).length - 4 = b.length from by
      simp]
    exact List.take_left b [0, 0, 0, 0]
  · intro b hlt
    rw [oracle1_zenc, List.length_append, List.length_append] at hlt
    simp at hlt
    omega
  · intro b e hbe
    rw [oracle1_xenc] at hbe
    have he : e = [0xFD, 0x37, 0x7A, 0x58, 0x5A, 0x00] ++ b ++ [0, 0, 0, 0, 0, 0] :=
      (Option.some_injective _ hbe).symm
    subst he
    rw [oracle1_xdec]
    rw [if_pos ⟨by rw [List.length_append, List.length_append]; simp, by simp⟩]
    have hdrop : ([0xFD, 0x37, 0x7A, 0x58, 0x5A, 0x00] ++ b ++ [0, 0, 0, 0, 0, 0]).drop 6 =
        b ++ [0, 0, 0, 0, 0, 0] := by
      simp
    rw [hdrop]
    congr 1
    rw [List.length_append,
      show b.length + ([0, 0, 0, 0, 0, 0] : List Nat).length - 6 = b.length from by simp]
    exact List.take_left b [0, 0, 0, 0, 0, 0]
  · intro b e hbe hlt
    rw [oracle1_xenc] at hbe
    have he : e = [0xFD, 0x37, 0x7A, 0x58, 0x5A, 0x00] ++ b ++ [0, 0, 0, 0, 0, 0] :=
      (Option.some_injective _ hbe).symm
    subst he
    rw [List.length_append, List.length_append] at hlt
    simp at hlt
    omega
  · intro n
    rw [oracle1_cb]
    omega
  · intro b
    rw [oracle1_zenc, oracle1_cb, List.length_append, List.length_append]
    simp
    omega

/-- Claim C1, amended: create-then-extract yields byte-identical contents and
recovers exactly the normalised filenames, for every codec and every block
size in 1024, 65536, 131072, provided that the external codecs invert their
own encodings and mark shrinking outputs with their signature (OracleSound),
that every normalised name is nonempty and newline-free, and that no block
emitted verbatim (stored, or kept raw by the fallback) begins with a zlib or
XZ signature.  The counterexample shows the last proviso cannot be dropped. -/
theorem c1_roundtrip_amended (o : Oracle) (hs : OracleSound o) (c : Codec) (bs : Nat)
    (absflag trimflag : Bool) (names contents : List (List Nat))
    (hbs : bs = 1024 ∨ bs = 65536 ∨ bs = 131072)
    (hnm : ∀ nm ∈ names.map (normalize_name absflag trimflag), nm ≠ [] ∧ 10 ∉ nm)
    (hraw : ∀ content ∈ build_manifest (names.map (normalize_name absflag trimflag)) :: contents,
      ∀ b ∈ chunks bs content, compress_entry_block o c bs b = b →
        detect_block_codec b = Detected.raw) :
    round_trip_ok o c bs absflag trimflag names contents := by
  have hbs0 : 0 < bs := by rcases hbs with rfl | rfl | rfl <;> decide
  have hcapf : ∀ b : List Nat, b.length ≤ bs →
      (c ≠ Codec.store → b.length ≤ sync_cap o c bs b.length) := by
    intro b hb hne
    cases c with
    | store => exact absurd rfl hne
    | zlib => exact hs.cb_ge b.length
    | lzma => exact hb
  have hreadc : ∀ content ∈
      build_manifest (names.map (normalize_name absflag trimflag)) :: contents,
      ∀ b ∈ chunks bs content,
        read_block o (compress_entry_block o c bs b) b.length = some b := by
    intro content hcont b hb
    have hc2 := chunks_mem bs hbs0 content b hb
    exact read_emit_block o hs c _ b hc2.1 (hcapf b hc2.2) (hraw content hcont b hb)
  have hposc : ∀ content ∈
      build_manifest (names.map (normalize_name absflag trimflag)) :: contents,
      ∀ b ∈ chunks bs content, 0 < (compress_entry_block o c bs b).length := by
    intro content hcont b hb
    have hc2 := chunks_mem bs hbs0 content b hb
    exact (emit_block_len o hs c _ b hc2.1 (hcapf b hc2.2)).1
  -- naming the construction pieces
  set emitf : List Nat → List Nat := compress_entry_block o c bs with hemitf
  set stored : List (List Nat) := names.map (normalize_name absflag trimflag) with hstored
  set manifest : List Nat := build_manifest stored with hman
  set psM : List (List Nat) := (chunks bs manifest).map emitf with hpsM
  set cjoins : List Nat :=
    (contents.map (fun ct => ((chunks bs ct).map emitf).flatten)).flatten with hcjoins
  set cslots : List Nat :=
    (contents.map (fun ct => (chunks bs ct).map (fun b => (emitf b).length))).flatten with hcslots
  set st1 : PakState := (compress_entry_model emitf bs manifest ⟨0, 0, [], []⟩).1 with hst1
  set r : CreateResult := create_archive_model emitf bs absflag trimflag names contents with hr
  have hst1a : st1.total_size = psM.flatten.length := by
    rw [hst1]
    simp [compress_entry_model, List.length_flatten, hpsM]
  have hst1b : st1.blocktable_idx = psM.length := by
    rw [hst1]
    simp [compress_entry_model, hpsM]
  have hst1c : st1.out = psM.flatten := by
    rw [hst1]
    simp [compress_entry_model, hpsM]
  have hst1d : st1.slots = psM.map List.length := by
    rw [hst1]
    simp [compress_entry_model, hpsM]
  have hrdata : r.data = psM.flatten ++ cjoins := by
    rw [hr]
    show (create_entries emitf bs contents st1).1.out = _
    rw [(create_entries_out_slots emitf bs contents st1).1, hst1c]
  have hrslots : r.blocktable = psM.map List.length ++ cslots := by
    rw [hr]
    show (create_entries emitf bs contents st1).1.slots = _
    rw [(create_entries_out_slots emitf bs contents st1).2, hst1d]
  have hmslots : psM.map List.length =
      (chunks bs manifest).map (fun b => (emitf b).length) := by
    rw [hpsM, List.map_map]
    rfl
  have hvals : ∀ v ∈ psM.map List.length ++ cslots, 0 < v ∧ v ≤ bs := by
    intro v hv
    rcases List.mem_append.mp hv with hv | hv
    · rcases List.mem_map.mp hv with ⟨p, hp, rfl⟩
      rcases List.mem_map.mp hp with ⟨b, hb, rfl⟩
      have hc2 := chunks_mem bs hbs0 manifest b hb
      have he := emit_block_len o hs c _ b hc2.1 (hcapf b hc2.2)
      exact ⟨he.1, le_trans he.2 hc2.2⟩
    · rcases List.mem_flatten.mp hv with ⟨L, hL, hvL⟩
      rcases List.mem_map.mp hL with ⟨ct, hct, rfl⟩
      rcases List.mem_map.mp hvL with ⟨b, hb, rfl⟩
      have hc2 := chunks_mem bs hbs0 ct b hb
      have he := emit_block_len o hs c _ b hc2.1 (hcapf b hc2.2)
      exact ⟨he.1, le_trans he.2 hc2.2⟩
  have hbt : ∀ k, k < (psM.map List.length ++ cslots).length →
      resolve_block_size bs (reader_blocktable bs (psM.map List.length ++ cslots) k) =
        (psM.map List.length ++ cslots).getD k 0 := by
    intro k hk
    have hv := hvals _ (getD_mem_of_lt (psM.map List.length ++ cslots) k 0 hk)
    exact resolve_slot_roundtrip bs _ hbs hv.1 hv.2
  have hmanlen : (psM.map List.length).length = (chunks bs manifest).length := by
    rw [List.length_map, hpsM, List.length_map]
  -- extraction of the manifest entry
  have hmanifest : decompress_entry_model o bs (reader_blocktable bs (psM.map List.length ++ cslots))
      r.data 0 0 manifest.length = some manifest := by
    apply decompress_entry_model_roundtrip o bs hbs0 _ r.data emitf manifest 0 0 cjoins
      (hreadc manifest (List.mem_cons_self _ _)) (hposc manifest (List.mem_cons_self _ _))
    · rw [hrdata, List.drop_zero, hpsM]
    · intro k hk
      have h1 := hbt k (by rw [List.length_append]; omega)
      rw [getD_append_left_of_lt _ _ k 0 (by omega)] at h1
      rw [Nat.zero_add, h1, hmslots,
        show (chunks bs manifest).map (fun b => (emitf b).length) =
          ((chunks bs manifest).map emitf).map List.length from by rw [List.map_map]; rfl,
        getD_map_length _ k (by rw [List.length_map]; exact hk)]
  -- extraction of the file entries
  have hfiles : extract_all o bs (reader_blocktable bs (psM.map List.length ++ cslots))
      r.data (create_entries emitf bs contents st1).2 = some contents := by
    apply extract_create_entries o bs hbs0 _ r.data emitf contents st1 []
      (fun ct h2 => hreadc ct (List.mem_cons_of_mem _ h2))
      (fun ct h2 => hposc ct (List.mem_cons_of_mem _ h2))
    · rw [hst1a, hrdata, List.drop_left, ← hcjoins, List.append_nil]
    · intro k hk
      rw [hst1b]
      rw [← hcslots] at hk
      have h1 := hbt ((psM.map List.length).length + k) (by
        rw [List.length_append]
        omega)
      rw [getD_append_right_add] at h1
      rw [List.length_map] at h1
      rw [hcslots] at h1
      exact h1
  -- assembling the round trip
  refine ⟨?_, ?_⟩
  · show extract_all o bs (reader_blocktable bs r.blocktable) r.data r.file_metas = some contents
    rw [hrslots]
    exact hfiles
  · show (extract_entry o bs (reader_blocktable bs r.blocktable) r.data r.manifest_meta).map
      split_tokens = some r.filenames
    rw [hrslots]
    show (decompress_entry_model o bs (reader_blocktable bs (psM.map List.length ++ cslots))
      r.data 0 0 manifest.length).map split_tokens = some stored
    rw [hmanifest]
    show some (split_tokens manifest) = some stored
    rw [hman, split_tokens_manifest stored hnm]

/-- Claim C1 amended, witness: concrete zlib-codec round trip through the
witness oracle, whose encoder never shrinks so every block is stored raw. -/
theorem c1_roundtrip_amended_witness :
    round_trip_ok oracle1 Codec.zlib 1024 false false [[97]] [[1, 2, 3]] :=
  c1_roundtrip_amended oracle1 oracle1_sound Codec.zlib 1024 false false [[97]] [[1, 2, 3]]
    (Or.inl rfl) (by decide) (by decide)

end PSARc
